import Mathlib

/-!
Verification of the job-orchestration core of the Youtube-Downloader service
(source: `src/Mobile/app.py`).  The Python functions are shallowly embedded:
dictionaries become association lists or structures, `time.time()` becomes an
explicit `now : Int` argument threaded to every write, Python `None` becomes
`Option.none`, and the yt-dlp collaborator is represented by the data it feeds
back into the core (progress events, the prepared output filename, or an
exception message).
-/

/-! ## String helpers (models of the Python string operations used by app.py) -/

/-- Characters Python `float` strips from both ends of its argument. -/
def isPySpace (c : Char) : Bool :=
  c = ' ' || c = '\t' || c = '\n' || c = '\r' || c = '\x0b' || c = '\x0c'

/-- Model of Python whitespace stripping applied by `float(...)`. -/
def pyStrip (cs : List Char) : List Char :=
  ((cs.dropWhile isPySpace).reverse.dropWhile isPySpace).reverse

/-- Split a character list on a separator character (model of `str.split(sep)`
restricted to one-character separators; always returns at least one piece). -/
def splitOnChar (sep : Char) : List Char → List (List Char)
  | [] => [[]]
  | c :: cs =>
    let r := splitOnChar sep cs
    if c = sep then [] :: r
    else
      match r with
      | h :: t => (c :: h) :: t
      | [] => [[c]]

/-- Numeric value of a list of decimal digit characters. -/
def digitsVal (cs : List Char) : Nat :=
  cs.foldl (fun n c => 10 * n + (c.toNat - 48)) 0

/-- Model of Python `int(s)` on the strings produced inside `get_formats`
(plain digit strings); `none` when the characters are not all digits. -/
def parseNat? (cs : List Char) : Option Nat :=
  if cs ≠ [] ∧ cs.all Char.isDigit then some (digitsVal cs) else none

/-- Model of Python `float(s)` returning an exact rational, or `none` when the
call would raise `ValueError`.  The decimal forms (optional sign, optional
single decimal point, surrounding whitespace) are modelled; the exponent,
`inf`/`nan` and underscore-grouping forms — never produced by yt-dlp percent
strings — are not. -/
def pyFloat? (s : String) : Option ℚ :=
  let cs := pyStrip s.data
  let sgn : ℚ × List Char :=
    match cs with
    | '-' :: rest => (-1, rest)
    | '+' :: rest => (1, rest)
    | _ => (1, cs)
  match splitOnChar '.' sgn.2 with
  | [ip] =>
    if ip ≠ [] ∧ ip.all Char.isDigit then some (sgn.1 * (digitsVal ip : ℚ)) else none
  | [ip, fp] =>
    if (ip ≠ [] ∨ fp ≠ []) ∧ ip.all Char.isDigit ∧ fp.all Char.isDigit then
      some (sgn.1 * ((digitsVal ip : ℚ) + (digitsVal fp : ℚ) / ((10 : ℚ) ^ fp.length)))
    else none
  | _ => none

/-- Model of Python `s.replace(c, '')` for a one-character pattern: every
occurrence of the character is removed. -/
def removeChar (sep : Char) (s : String) : String :=
  String.mk (s.data.filter (fun c => c ≠ sep))

/-- Model of `os.path.join` (posix separator, relative second component as in
the source). -/
def joinPath (dir name : String) : String := dir ++ "/" ++ name

/-- Model of `os.path.basename`: everything after the last separator. -/
def basename (p : String) : String :=
  String.mk ((p.data.reverse.takeWhile (fun c => c ≠ '/')).reverse)

/-- Model of `os.path.splitext(p)[0]`: the path up to the last dot of the final
component, provided a non-dot character precedes that dot within the component
(Python treats leading dots as part of the name, not an extension). -/
def splitextRoot (p : String) : String :=
  let cs := p.data
  let base := cs.reverse.takeWhile (fun c => c ≠ '/')
  if base.contains '.' then
    let afterDotRev := base.takeWhile (fun c => c ≠ '.')
    let beforeDotRev := (base.dropWhile (fun c => c ≠ '.')).drop 1
    if beforeDotRev.any (fun c => c ≠ '.') then
      String.mk (cs.take (cs.length - (afterDotRev.length + 1)))
    else p
  else p

/-! ## Job Store (the `jobs` dict and `update_job_status`, app.py lines 19-28) -/

/-- One job record, as written by `update_job_status`: the five dictionary
fields, with `time.time()` modelled by the `Int` timestamp passed in by the
caller and `progress` idealised as an exact rational. -/
structure JobRecord where
  status : String
  text : Option String
  progress : ℚ
  filename : Option String
  timestamp : Int
deriving DecidableEq, Repr

/-- The in-memory `jobs` dictionary: an insertion-ordered association list with
(at most) one entry per job id, exactly like a Python dict. -/
abbrev JobStore := List (String × JobRecord)

/-- Model of `jobs.get(job_id)`. -/
def storeGet (jobs : JobStore) (k : String) : Option JobRecord :=
  (List.find? (fun e => e.1 == k) jobs).map (fun e => e.2)

/-- Model of `jobs[k] = v`: overwrite in place when the key exists, else append
(Python dicts keep insertion order). -/
def storeSet (jobs : JobStore) (k : String) (v : JobRecord) : JobStore :=
  if jobs.any (fun e => e.1 == k) then
    jobs.map (fun e => if e.1 == k then (k, v) else e)
  else jobs ++ [(k, v)]

/-- Model of `del jobs[k]`. -/
def storeDel (jobs : JobStore) (k : String) : JobStore :=
  jobs.filter (fun e => e.1 != k)

/-- Model of `update_job_status` (app.py lines 21-28): replaces the record
wholesale and stamps it with the current time.  The Python defaults
(`text=None, progress=0, filename=None`) are passed explicitly by each caller
below. -/
def update_job_status (jobs : JobStore) (job_id status : String) (text : Option String)
    (progress : ℚ) (filename : Option String) (now : Int) : JobStore :=
  storeSet jobs job_id ⟨status, text, progress, filename, now⟩

/-! ## Progress Reporter (`progress_hook`, app.py lines 30-41) -/

/-- A yt-dlp progress event as seen by the hook: the mandatory `status` key and
the optional `_percent_str` key read via `d.get('_percent_str', '0%')`. -/
structure HookEvent where
  status : String
  percent_str : Option String
deriving DecidableEq, Repr

/-- The record content (minus timestamp) of one `update_job_status` call. -/
structure WriteReq where
  status : String
  text : Option String
  progress : ℚ
  filename : Option String
deriving DecidableEq, Repr

/-- Perform one recorded write against the store at a given time. -/
def applyWrite (jobs : JobStore) (job_id : String) (w : WriteReq) (now : Int) : JobStore :=
  update_job_status jobs job_id w.status w.text w.progress w.filename now

/-- The write (if any) the hook body performs for one event: a `downloading`
event strips `%` from the percent string, parses it with `float` defaulting to
0 on failure (the bare `except`), and writes a `downloading` record; a
`finished` event writes the fixed `processing` record; every other event kind
performs no write. -/
def hookWrite? (d : HookEvent) : Option WriteReq :=
  if d.status = "downloading" then
    let p := removeChar '%' (d.percent_str.getD "0%")
    some ⟨"downloading", some ("Downloading... " ++ p ++ "%"), (pyFloat? p).getD 0, none⟩
  else if d.status = "finished" then
    some ⟨"processing", some "Processing with ffmpeg...", 100, none⟩
  else none

/-- Model of the closure returned by `progress_hook(job_id)` acting on the job
store (app.py lines 30-41). -/
def progress_hook (job_id : String) (d : HookEvent) (jobs : JobStore) (now : Int) : JobStore :=
  match hookWrite? d with
  | some w => applyWrite jobs job_id w now
  | none => jobs

/-! ## Formats endpoint (`get_formats`, app.py lines 96-168).
The yt-dlp extraction itself is external; the endpoint's own logic is a pure
transformation of the format dictionaries returned by `extract_info`, modelled
here on the fields the code reads. -/

/-- One format dictionary from yt-dlp `info['formats']`, restricted to the keys
`get_formats` reads.  Missing keys are `none` (`f.get(...)`). -/
structure RawFormat where
  format_id : String
  ext : String
  format_note : String
  vcodec : String
  acodec : String
  height : Option Nat
  filesize : Option Nat
  filesize_approx : Option Nat
deriving DecidableEq, Repr

/-- Python `a or b` on optional numbers: keep `a` when it is truthy (present
and nonzero), else `b` — models `f.get('filesize_approx') or f.get('filesize')`. -/
def pyOrNat : Option Nat → Option Nat → Option Nat
  | some n, b => if n = 0 then b else some n
  | none, b => b

/-- An element of the intermediate `formats` list built by the collection loop
(app.py lines 128-135). -/
structure FmtEntry where
  id : String
  ext : String
  quality : String
  note : String
  filesize : Option Nat
  has_audio : Bool
deriving DecidableEq, Repr

/-- The resolution buckets accepted by the endpoint (app.py line 124). -/
def buckets : List Nat := [360, 480, 720, 1080, 1440, 2160]

/-- The dictionary appended for a format at resolution `res` (lines 128-135). -/
def mkEntry (f : RawFormat) (res : Nat) : FmtEntry :=
  ⟨f.format_id, f.ext, toString res ++ "p", f.format_note,
    pyOrNat f.filesize_approx f.filesize, f.acodec != "none"⟩

/-- The collection loop (lines 120-135): keep formats with a video codec whose
height is truthy and in one of the buckets. -/
def collectFormats (fs : List RawFormat) : List FmtEntry :=
  fs.filterMap (fun f =>
    if f.vcodec ≠ "none" then
      match f.height with
      | some res => if res ≠ 0 ∧ res ∈ buckets then some (mkEntry f res) else none
      | none => none
    else none)

/-- The sort key `int(x['quality'].replace('p', ''))` (line 138); entries built
by the collection loop always carry a digits-then-p quality so the parse never
fails, `getD 0` standing in for the impossible `ValueError`. -/
def keyOfQ (q : String) : Nat :=
  (parseNat? ((removeChar 'p' q).data)).getD 0

/-- Sort key of an entry. -/
def keyOf (e : FmtEntry) : Nat := keyOfQ e.quality

/-- The comparison used by `formats.sort(key=..., reverse=True)`: a stable sort
placing larger keys first. -/
def descLe (a b : FmtEntry) : Bool := keyOf b ≤ keyOf a

/-- First index of an entry with the given quality — Python's
`next(i for i, x in enumerate(unique_formats) if x['quality'] == q)`. -/
def firstIdxAt (q : String) : List FmtEntry → Option Nat
  | [] => none
  | x :: t => if x.quality == q then some 0 else (firstIdxAt q t).map (· + 1)

/-- One iteration of the deduplication loop (lines 143-153).  `seen_quality`
always maps a quality to the unique entry of `unique_formats` carrying it, so
the dict lookup is modelled by `find?` on the accumulator; a replacement writes
`f` at the first (only) index with that quality. -/
def dedupStep (acc : List FmtEntry) (f : FmtEntry) : List FmtEntry :=
  match acc.find? (fun x => x.quality == f.quality) with
  | none => acc ++ [f]
  | some x =>
    if f.has_audio && !x.has_audio then
      match firstIdxAt f.quality acc with
      | some i => acc.set i f
      | none => acc
    else acc

/-- The `unique_formats` list: sort descending (line 138) then deduplicate by
quality preferring audio-bearing entries (lines 141-153). -/
def unique_formats (fs : List RawFormat) : List FmtEntry :=
  (((collectFormats fs).mergeSort descLe).foldl dedupStep [])

/-- One element of the response's `formats` array (lines 158-165). -/
structure OutFormat where
  id : String
  ext : String
  quality : String
  note : String
  filesize : Option Nat
  needs_merge : Bool
deriving DecidableEq, Repr

/-- The response projection of one deduplicated entry (lines 158-165). -/
def renderFormat (f : FmtEntry) : OutFormat :=
  ⟨f.id,
    if !f.has_audio then "mp4" else f.ext,
    f.quality,
    if f.has_audio then "Video + Audio" else "HD (Video Only)",
    f.filesize,
    !f.has_audio⟩

/-- The metadata `get_formats` reads from `extract_info` besides the formats. -/
structure VideoInfo where
  title : Option String
  thumbnail : Option String
  formats : List RawFormat
deriving DecidableEq, Repr

/-- The JSON body returned on success. -/
structure FormatsResponse where
  title : Option String
  thumbnail : Option String
  formats : List OutFormat
deriving DecidableEq, Repr

/-- The success path of the `/api/formats` endpoint (lines 96-166) as a
function of the extracted metadata; the missing-url 400 and the extraction
500 paths return before this transformation runs. -/
def get_formats (info : VideoInfo) : FormatsResponse :=
  ⟨info.title, info.thumbnail, (unique_formats info.formats).map renderFormat⟩

/-! ## Download Worker (`download_task`, app.py lines 43-82) and Job Dispatcher
(`start_download`, lines 170-209) -/

/-- One yt-dlp postprocessor directive. -/
structure Postprocessor where
  key : String
  preferredcodec : Option String
  preferredquality : Option String
deriving DecidableEq, Repr

/-- The `format_opts` dict handed from the dispatcher to the worker; each field
is optional because the worker reads it with `.get(...)`. -/
structure FormatOpts where
  format_id : Option String
  is_audio : Option Bool
  postprocessors : Option (List Postprocessor)
deriving DecidableEq, Repr

/-- The value stored under the `cookiefile` key of the yt-dlp options dict: the
key is always present, holding either a path string or Python `None`. -/
inductive CookieOpt
  | path (s : String)
  | nullv
deriving DecidableEq, Repr

/-- The `ydl_opts` dictionary built by `download_task` (lines 45-69), keyed by
the literal entries of the source dict; the nested `extractor_args.youtube`
dict is flattened into the two `player_*` fields and `progress_hooks` is
recorded as the job id the registered hook closes over. -/
structure YdlOpts where
  outtmpl : String
  hook_job_id : String
  format : String
  player_client : List String
  player_skip_bundle_url : Bool
  nocheckcertificate : Bool
  quiet : Bool
  no_warnings : Bool
  http_headers : List (String × String)
  cookiefile : CookieOpt
  postprocessors : List Postprocessor
deriving DecidableEq, Repr

/-- Builds `ydl_opts` exactly as `download_task` does (lines 45-69); `dl` is
`DOWNLOAD_FOLDER` and `fsExists` models `os.path.exists`. -/
def build_ydl_opts (dl job_id : String) (fo : FormatOpts) (fsExists : String → Bool) : YdlOpts :=
  ⟨joinPath dl (job_id ++ "_%(title)s.%(ext)s"),
    job_id,
    fo.format_id.getD "best",
    ["android", "web", "mweb", "ios"],
    true,
    true,
    false,
    false,
    [("User-Agent", "Mozilla/5.0 (Windows NT 10.0; Win64; x64) AppleWebKit/537.36 (KHTML, like Gecko) Chrome/120.0.0.0 Safari/537.36"),
     ("Accept", "text/html,application/xhtml+xml,application/xml;q=0.9,*/*;q=0.8"),
     ("Accept-Language", "en-us,en;q=0.5"),
     ("Sec-Fetch-Mode", "navigate")],
    if fsExists "cookies.txt" then .path "cookies.txt" else .nullv,
    fo.postprocessors.getD []⟩

/-- The smaller `ydl_opts` dict built by the formats endpoint (lines 104-115);
its `cookiefile` entry is the same conditional expression. -/
structure FormatsYdlOpts where
  player_client : List String
  player_skip_bundle_url : Bool
  http_headers : List (String × String)
  cookiefile : CookieOpt
deriving DecidableEq, Repr

/-- Builds the formats endpoint's `ydl_opts` (lines 104-115). -/
def formats_ydl_opts (fsExists : String → Bool) : FormatsYdlOpts :=
  ⟨["android", "web", "mweb", "ios"],
    true,
    [("User-Agent", "Mozilla/5.0 (Windows NT 10.0; Win64; x64) AppleWebKit/537.36 (KHTML, like Gecko) Chrome/120.0.0.0 Safari/537.36")],
    if fsExists "cookies.txt" then .path "cookies.txt" else .nullv⟩

/-- The filename the worker resolves after a successful call (lines 73-77):
`prepare_filename` output, with the extension forced to `.mp3` for audio jobs. -/
def finalFilename (preparedFilename : String) (fo : FormatOpts) : String :=
  if fo.is_audio.getD false then splitextRoot preparedFilename ++ ".mp3"
  else preparedFilename

/-- The dispatcher's initial write (line 181). -/
def startingWrite : WriteReq := ⟨"starting", some "Starting process...", 0, none⟩

/-- The worker's success write (line 79). -/
def completedWrite (fo : FormatOpts) (preparedFilename : String) : WriteReq :=
  ⟨"completed", some "Finished!", 100, some (basename (finalFilename preparedFilename fo))⟩

/-- The worker's `except` write (line 82): `update_job_status(job_id, 'error',
f"Error: {str(e)}")`, with the defaults `progress=0, filename=None`. -/
def errorWrite (e : String) : WriteReq := ⟨"error", some ("Error: " ++ e), 0, none⟩

/-- One run of the yt-dlp collaborator as observed by the worker: the progress
events it pushes into the registered hook during `extract_info`, then either
the prepared output filename (`Except.ok`) or the exception it raises
(`Except.error`).  Exceptions raised anywhere inside the `try` block are
covered: the events delivered before the raise are exactly `events`. -/
structure CollabRun where
  events : List HookEvent
  outcome : Except String String

/-- The ordered sequence of job-store writes one `download_task` run performs
for its job (lines 43-82): the hook writes triggered during `extract_info`,
then exactly one final write — `completed` on success, `error` on exception.
No other code path of the function writes to the store. -/
def download_taskWrites (fo : FormatOpts) (run : CollabRun) : List WriteReq :=
  run.events.filterMap hookWrite? ++
    [match run.outcome with
     | .ok pf => completedWrite fo pf
     | .error e => errorWrite e]

/-- All writes ever performed against one job's record, in order: the
dispatcher's `starting` write (line 181) followed by the worker's writes.  The
worker thread is the only writer after dispatch; the sweeper only deletes. -/
def jobWrites (fo : FormatOpts) (run : CollabRun) : List WriteReq :=
  startingWrite :: download_taskWrites fo run

/-- A write carrying one of the two terminal statuses. -/
def isTerminal (w : WriteReq) : Prop := w.status = "completed" ∨ w.status = "error"

instance (w : WriteReq) : Decidable (isTerminal w) := by unfold isTerminal; infer_instance

/-- The JSON body of a `POST /api/download` request. -/
structure DownloadRequest where
  url : Option String
  type : Option String
  format_id : Option String
deriving DecidableEq, Repr

/-- Python truthiness of an optional string (`if not url`, `if format_id`). -/
def pyTruthy (s : Option String) : Bool :=
  match s with
  | some t => !t.isEmpty
  | none => false

/-- The `format_opts` derivation of the dispatcher (lines 183-204). -/
def deriveFormatOpts (type format_id : Option String) : FormatOpts :=
  if type = some "audio" then
    ⟨some "bestaudio/best", some true,
      some [⟨"FFmpegExtractAudio", some "mp3", some "192"⟩]⟩
  else if pyTruthy format_id then
    ⟨some (format_id.getD "" ++ "+bestaudio/best"), none, none⟩
  else
    ⟨some "bestvideo+bestaudio/best", none, none⟩

/-- A worker thread that has been started but whose effects are not part of the
dispatcher's own transition (`threading.Thread(...).start()`, fire-and-forget). -/
structure SpawnedTask where
  job_id : String
  url : String
  format_opts : FormatOpts
deriving DecidableEq, Repr

/-- The dispatcher-visible state: the job store, the supply of fresh job ids
(`uuid.uuid4()` modelled as an injective counter-indexed supply), and the
threads spawned so far. -/
structure DispatchState where
  jobs : JobStore
  nextUuid : Nat
  spawned : List SpawnedTask
deriving DecidableEq, Repr

/-- The n-th fresh job identifier. -/
def uuidName (n : Nat) : String := "uuid-" ++ toString n

/-- Model of `start_download` (lines 170-209).  `Except.error` is the
synchronous 400 `InvalidRequest` response; `Except.ok job_id` is the immediate
`{'job_id': ...}` response returned without waiting for the spawned worker. -/
def start_download (req : DownloadRequest) (st : DispatchState) (now : Int) :
    Except String String × DispatchState :=
  if !pyTruthy req.url then
    (Except.error "URL is required", st)
  else
    let job_id := uuidName st.nextUuid
    let jobs1 := applyWrite st.jobs job_id startingWrite now
    let fo := deriveFormatOpts req.type req.format_id
    (Except.ok job_id, ⟨jobs1, st.nextUuid + 1, st.spawned ++ [⟨job_id, req.url.getD "", fo⟩]⟩)

/-! ## Cleanup Sweeper (`cleanup`, app.py lines 227-242) -/

/-- The retention window: `now - jobs[job_id]['timestamp'] > 3600` (line 232). -/
def cleanupMaxAgeSeconds : Int := 3600

/-- The pause between sweep cycles: `time.sleep(300)` (line 242). -/
def cleanupSleepSeconds : Nat := 300

/-- The file-deletion part of one sweep iteration (lines 233-240): when a
truthy filename is recorded and the joined path exists, try `os.remove`; the
`except: pass` swallows a failing removal (`removeOk path = false`) so the
file survives, and a missing file is silently skipped. -/
def sweepFileEffect (dl : String) (removeOk : String → Bool) (fs : List String)
    (filename : Option String) : List String :=
  match filename with
  | some fn =>
    if !fn.isEmpty then
      if fs.contains (joinPath dl fn) then
        (if removeOk (joinPath dl fn) then fs.filter (fun q => q ≠ joinPath dl fn) else fs)
      else fs
    else fs
  | none => fs

/-- The body of the sweep loop for one snapshot key (lines 231-241), acting on
the pair (job store, set of existing file paths).  A stale job first gets its
backing file removed (best effort), then its record deleted; fresh jobs are
untouched. -/
def sweepJob (now : Int) (dl : String) (removeOk : String → Bool)
    (st : JobStore × List String) (job_id : String) : JobStore × List String :=
  match storeGet st.1 job_id with
  | none => st
  | some r =>
    if now - r.timestamp > cleanupMaxAgeSeconds then
      (storeDel st.1 job_id, sweepFileEffect dl removeOk st.2 r.filename)
    else st

/-- One full sweep cycle (lines 229-241): iterate over the stable snapshot
`list(jobs.keys())` taken before any deletion. -/
def cleanup_sweep (now : Int) (dl : String) (removeOk : String → Bool)
    (jobs : JobStore) (fs : List String) : JobStore × List String :=
  (jobs.map (fun e => e.1)).foldl (sweepJob now dl removeOk) (jobs, fs)

/-! ## The system's job-store transitions.  Every mutation of `jobs` in app.py
is one of: the dispatcher's `starting` write (line 181), a progress-hook write
(lines 38 and 40), the worker's final success or error write (lines 79 and 82),
or a cleanup sweep (lines 230-241). -/

/-- One store mutation performed by any component of the system. -/
inductive SysStep : JobStore → JobStore → Prop
  | dispatch (s : JobStore) (job_id : String) (now : Int) :
      SysStep s (applyWrite s job_id startingWrite now)
  | hook (s : JobStore) (job_id : String) (d : HookEvent) (now : Int) :
      SysStep s (progress_hook job_id d s now)
  | workerSuccess (s : JobStore) (job_id : String) (fo : FormatOpts) (pf : String) (now : Int) :
      SysStep s (applyWrite s job_id (completedWrite fo pf) now)
  | workerFail (s : JobStore) (job_id : String) (e : String) (now : Int) :
      SysStep s (applyWrite s job_id (errorWrite e) now)
  | sweep (s : JobStore) (now : Int) (dl : String) (removeOk : String → Bool) (fs : List String) :
      SysStep s (cleanup_sweep now dl removeOk s fs).1

/-- A store state the running system can be in, starting from the empty
`jobs = {}` of line 19. -/
def Reachable (s : JobStore) : Prop := Relation.ReflTransGen SysStep [] s

/-- The numeric value the hook derives from an event's percent string:
`float(p)` with the bare-`except` default 0. -/
def parsedPercent (d : HookEvent) : ℚ :=
  (pyFloat? (removeChar '%' (d.percent_str.getD "0%"))).getD 0

/-- Deliver a sequence of timestamped collaborator events to one job's
progress hook. -/
def runHooks (job_id : String) (events : List (HookEvent × Int)) (jobs : JobStore) : JobStore :=
  events.foldl (fun s e => progress_hook job_id e.1 s e.2) jobs

/-- An intermediate format entry whose quality string is a bucket resolution
followed by `p` — the shape of everything the collection loop builds. -/
def IsBucket (e : FmtEntry) : Prop :=
  ∃ res, res ∈ buckets ∧ e.quality = toString res ++ "p"

/-- The resolution encoded in a response entry's quality string. -/
def outRes (o : OutFormat) : Nat := keyOfQ o.quality

/-- Evaluation lemma: `float("0") == 0.0`. -/
theorem pyFloat_zero : pyFloat? "0" = some 0 := by
  have h : pyFloat? "0" = some (1 * ((digitsVal ['0'] : Nat) : ℚ)) := rfl
  have h2 : digitsVal ['0'] = 0 := by decide
  rw [h, h2]; norm_num

/-- Evaluation lemma: `float("150") == 150.0`. -/
theorem pyFloat_150 : pyFloat? "150" = some 150 := by
  have h : pyFloat? "150" = some (1 * ((digitsVal ['1', '5', '0'] : Nat) : ℚ)) := rfl
  have h2 : digitsVal ['1', '5', '0'] = 150 := by decide
  rw [h, h2]; norm_num

/-- Evaluation lemma: `float("30") == 30.0`. -/
theorem pyFloat_30 : pyFloat? "30" = some 30 := by
  have h : pyFloat? "30" = some (1 * ((digitsVal ['3', '0'] : Nat) : ℚ)) := rfl
  have h2 : digitsVal ['3', '0'] = 30 := by decide
  rw [h, h2]; norm_num

/-- Evaluation lemma: `float("7") == 7.0`. -/
theorem pyFloat_7 : pyFloat? "7" = some 7 := by
  have h : pyFloat? "7" = some (1 * ((digitsVal ['7'] : Nat) : ℚ)) := rfl
  have h2 : digitsVal ['7'] = 7 := by decide
  rw [h, h2]; norm_num

/-- Evaluation lemma: `float("abc")` raises, i.e. parses to `none`. -/
theorem pyFloat_abc : pyFloat? "abc" = none := by decide

example : pyFloat? "" = none := by decide
example : pyFloat? "12.3.4" = none := by decide
example : removeChar '%' " 42.5%" = " 42.5" := by decide
example : basename "downloads/abc_t.mp4" = "abc_t.mp4" := by decide
example : splitextRoot "downloads/abc_t.webm" = "downloads/abc_t" := by decide
example : splitextRoot "downloads/.bashrc" = "downloads/.bashrc" := by decide

/-- Evaluation lemma: `float("50") == 50.0`. -/
theorem pyFloat_50 : pyFloat? "50" = some 50 := by
  have h : pyFloat? "50" = some (1 * ((digitsVal ['5', '0'] : Nat) : ℚ)) := rfl
  have h2 : digitsVal ['5', '0'] = 50 := by decide
  rw [h, h2]; norm_num

/-! ## Job-store lemmas -/

/-- Helper: in-place replacement puts the new pair where the first matching key
was, so a lookup finds it. -/
theorem find?_replace (t : JobStore) (k : String) (v : JobRecord)
    (ht : t.any (fun e => e.1 == k) = true) :
    List.find? (fun e => e.1 == k)
      (t.map (fun e => if e.1 == k then (k, v) else e)) = some (k, v) := by
  induction t with
  | nil => simp at ht
  | cons a t ih =>
    by_cases ha : (a.1 == k) = true
    · have hrepl : (if (a.1 == k) = true then (k, v) else a) = (k, v) := by simp [ha]
      simp only [List.map_cons, hrepl]
      exact List.find?_cons_of_pos _ (by simp)
    · have hmap : (if (a.1 == k) = true then (k, v) else a) = a := by simp [ha]
      have ht' : t.any (fun e => e.1 == k) = true := by
        rcases List.any_eq_true.mp ht with ⟨x, hx, hpx⟩
        rcases List.mem_cons.mp hx with rfl | hx'
        · exact absurd hpx ha
        · exact List.any_eq_true.mpr ⟨x, hx', hpx⟩
      simp only [List.map_cons, hmap]
      rw [@List.find?_cons_of_neg _ (fun e => e.1 == k) a
        (List.map (fun e => if (e.1 == k) = true then (k, v) else e) t) ha]
      exact ih ht'

/-- Reading back the key just written returns the new record. -/
theorem storeGet_set_self (jobs : JobStore) (k : String) (v : JobRecord) :
    storeGet (storeSet jobs k v) k = some v := by
  unfold storeSet
  by_cases h : jobs.any (fun e => e.1 == k) = true
  · rw [if_pos h]
    unfold storeGet
    rw [find?_replace jobs k v h]
    rfl
  · rw [if_neg h]
    unfold storeGet
    rw [List.find?_append]
    have hnone : List.find? (fun e => e.1 == k) jobs = none :=
      List.find?_eq_none.mpr (fun x hx hpx => h (List.any_eq_true.mpr ⟨x, hx, hpx⟩))
    rw [hnone]
    simp

/-- Every entry of the store after a write is the written pair or an old entry. -/
theorem mem_storeSet (jobs : JobStore) (k : String) (v : JobRecord) (e : String × JobRecord)
    (h : e ∈ storeSet jobs k v) : e = (k, v) ∨ e ∈ jobs := by
  unfold storeSet at h
  split at h
  · rcases List.mem_map.mp h with ⟨a, ha, hae⟩
    by_cases h1 : (a.1 == k) = true
    · left; simp [h1] at hae; exact hae.symm
    · right
      rw [Bool.not_eq_true] at h1
      simp [h1] at hae
      exact hae ▸ ha
  · rcases List.mem_append.mp h with h1 | h1
    · right; exact h1
    · left; simpa using h1

/-- A hook write always carries a non-terminal status and no filename. -/
theorem hookWrite_fields (d : HookEvent) (w : WriteReq) (h : hookWrite? d = some w) :
    (w.status = "downloading" ∨ w.status = "processing") ∧ w.filename = none := by
  unfold hookWrite? at h
  split_ifs at h
  · cases h; exact ⟨Or.inl rfl, rfl⟩
  · cases h; exact ⟨Or.inr rfl, rfl⟩

/-- One sweep iteration only ever removes store entries. -/
theorem sweepJob_fst_subset (now : Int) (dl : String) (removeOk : String → Bool)
    (st : JobStore × List String) (job_id : String) :
    ∀ e ∈ (sweepJob now dl removeOk st job_id).1, e ∈ st.1 := by
  unfold sweepJob
  split
  · exact fun e he => he
  · split
    · intro e he
      exact List.mem_of_mem_filter he
    · exact fun e he => he

/-- Folding sweep iterations only ever removes store entries. -/
theorem sweep_foldl_fst_subset (now : Int) (dl : String) (removeOk : String → Bool)
    (ks : List String) :
    ∀ st : JobStore × List String, ∀ e ∈ (ks.foldl (sweepJob now dl removeOk) st).1, e ∈ st.1 := by
  induction ks with
  | nil => exact fun st e he => he
  | cons k t ih =>
    intro st e he
    exact sweepJob_fst_subset now dl removeOk st k e (ih _ e he)

/-- Preservation: a wholesale write whose record satisfies the filename/status
relation keeps the store invariant. -/
theorem inv_storeSet (s : JobStore) (k : String) (v : JobRecord)
    (hs : ∀ e ∈ s, (e.2.filename ≠ none ↔ e.2.status = "completed"))
    (hv : v.filename ≠ none ↔ v.status = "completed") :
    ∀ e ∈ storeSet s k v, (e.2.filename ≠ none ↔ e.2.status = "completed") := by
  intro e he
  rcases mem_storeSet s k v e he with rfl | hmem
  · exact hv
  · exact hs e hmem

/-- C1: in every reachable job store, a record's `filename` is set (non-null)
exactly when its `status` is `completed`: the dispatcher's `starting` write,
both progress-hook writes and the worker's `error` write all leave `filename`
as `None`, and only the worker's success write stores a filename — together
with `status='completed'`. -/
theorem c1_filename_iff_completed (s : JobStore) (h : Reachable s) :
    ∀ e ∈ s, (e.2.filename ≠ none ↔ e.2.status = "completed") := by
  unfold Reachable at h
  induction h with
  | refl => intro e he; exact absurd he (List.not_mem_nil e)
  | tail _ hstep ih =>
    cases hstep with
    | dispatch job_id now =>
      exact inv_storeSet _ job_id _ ih (by simp [startingWrite])
    | hook job_id d now =>
      unfold progress_hook
      cases hw : hookWrite? d with
      | none => simpa [hw] using ih
      | some w =>
        simp only [hw]
        rcases hookWrite_fields d w hw with ⟨hst, hfn⟩
        refine inv_storeSet _ job_id _ ih ?_
        show w.filename ≠ none ↔ w.status = "completed"
        rcases hst with h1 | h1 <;> simp [hfn, h1]
    | workerSuccess job_id fo pf now =>
      refine inv_storeSet _ job_id _ ih ?_
      simp [completedWrite]
    | workerFail job_id e now =>
      refine inv_storeSet _ job_id _ ih ?_
      simp [errorWrite]
    | sweep now dl removeOk fs =>
      intro e he
      exact ih e (sweep_foldl_fst_subset now dl removeOk _ _ e he)

/-- Witness for C1 at the single record of the store reached by one dispatch
write. -/
theorem c1_witness :
    (⟨"starting", some "Starting process...", 0, none, 0⟩ : JobRecord).filename ≠ none ↔
    (⟨"starting", some "Starting process...", 0, none, 0⟩ : JobRecord).status = "completed" :=
  c1_filename_iff_completed _
    (Relation.ReflTransGen.single (SysStep.dispatch [] "j" 0))
    ("j", ⟨"starting", some "Starting process...", 0, none, 0⟩)
    (List.mem_singleton.mpr rfl)

/-- C2: in the full write sequence a job's record ever receives — the
dispatcher's `starting` write followed by its (sole) worker's writes — every
write before the last carries a non-terminal status, and the final write is
the terminal `completed`-or-`error` one; hence after the terminal write the
record never changes again (until the sweeper deletes it). -/
theorem c2_terminal_write_is_last (fo : FormatOpts) (run : CollabRun) :
    (∀ w ∈ (jobWrites fo run).dropLast, ¬ isTerminal w) ∧
    (∀ z, (jobWrites fo run).getLast? = some z → isTerminal z) := by
  have hjw : jobWrites fo run =
      (startingWrite :: run.events.filterMap hookWrite?) ++
        [match run.outcome with
         | .ok pf => completedWrite fo pf
         | .error e => errorWrite e] := by
    simp [jobWrites, download_taskWrites]
  constructor
  · intro w hw
    rw [hjw, List.dropLast_concat] at hw
    rcases List.mem_cons.mp hw with rfl | hw'
    · simp [isTerminal, startingWrite]
    · rcases List.mem_filterMap.mp hw' with ⟨d, _, hwd⟩
      rcases hookWrite_fields d w hwd with ⟨hst, _⟩
      rcases hst with h1 | h1 <;> simp [isTerminal, h1]
  · intro z hz
    rw [hjw, List.getLast?_concat] at hz
    rcases hz with ⟨rfl⟩
    rcases hout : run.outcome with e | pf <;> simp only [hout]
    · exact Or.inr rfl
    · exact Or.inl rfl

/-- Witness for C2 on a concrete successful run with no progress events. -/
theorem c2_witness :
    ¬ isTerminal startingWrite ∧
      isTerminal (completedWrite ⟨some "best", none, none⟩ "downloads/j_title.mp4") := by
  constructor
  · exact (c2_terminal_write_is_last ⟨some "best", none, none⟩
      ⟨[], Except.ok "downloads/j_title.mp4"⟩).1 startingWrite (List.mem_cons_self _ _)
  · exact (c2_terminal_write_is_last ⟨some "best", none, none⟩
      ⟨[], Except.ok "downloads/j_title.mp4"⟩).2 _ rfl

/-- C3: `start_download` with a falsy (empty or missing) url answers the 400
`InvalidRequest` response and leaves the dispatcher state — store, fresh-id
supply and spawned threads — completely untouched; with a non-empty url it
writes the initial `starting` record under a freshly generated job id, records
the worker thread as spawned (fire-and-forget, its effects not included), and
immediately returns that job id. -/
theorem c3_start_download (req : DownloadRequest) (st : DispatchState) (now : Int) :
    (pyTruthy req.url = false →
      start_download req st now = (Except.error "URL is required", st)) ∧
    (pyTruthy req.url = true →
      (start_download req st now).1 = Except.ok (uuidName st.nextUuid) ∧
      storeGet (start_download req st now).2.jobs (uuidName st.nextUuid) =
        some ⟨"starting", some "Starting process...", 0, none, now⟩ ∧
      (start_download req st now).2.nextUuid = st.nextUuid + 1 ∧
      (start_download req st now).2.spawned = st.spawned ++
        [⟨uuidName st.nextUuid, req.url.getD "",
          deriveFormatOpts req.type req.format_id⟩]) := by
  constructor
  · intro h
    unfold start_download
    rw [h]
    rfl
  · intro h
    unfold start_download
    rw [h]
    refine ⟨rfl, ?_, rfl, rfl⟩
    exact storeGet_set_self st.jobs (uuidName st.nextUuid) _

/-- Witness for C3: the spec's end-to-end scenarios — an empty-url request is
rejected with no state change, and an audio request gets a fresh job id whose
record starts as `starting`. -/
theorem c3_witness :
    start_download ⟨some "", some "video", some "137"⟩ ⟨[], 0, []⟩ 5 =
      (Except.error "URL is required", ⟨[], 0, []⟩) ∧
    storeGet (start_download ⟨some "https://example/video", some "audio", none⟩
        ⟨[], 0, []⟩ 5).2.jobs (uuidName 0) =
      some ⟨"starting", some "Starting process...", 0, none, 5⟩ :=
  ⟨(c3_start_download ⟨some "", some "video", some "137"⟩ ⟨[], 0, []⟩ 5).1 rfl,
   ((c3_start_download ⟨some "https://example/video", some "audio", none⟩
      ⟨[], 0, []⟩ 5).2 rfl).2.1⟩

/-- C4: the Progress Reporter's event handling, observed on the job store.
Writing p for the event's percent string with its `%` characters removed (the
source's `d.get('_percent_str', '0%').replace('%', '')`): a `downloading`
event stores status `downloading`, message `Downloading... p%` and progress
`float(p)` with default 0 on parse failure; a `finished` event stores status
`processing`, message `Processing with ffmpeg...` and progress 100; any other
event kind leaves the store untouched. -/
theorem c4_progress_hook_events (job_id : String) (d : HookEvent) (jobs : JobStore)
    (now : Int) :
    (d.status = "downloading" →
      storeGet (progress_hook job_id d jobs now) job_id =
        some ⟨"downloading",
          some ("Downloading... " ++ removeChar '%' (d.percent_str.getD "0%") ++ "%"),
          (pyFloat? (removeChar '%' (d.percent_str.getD "0%"))).getD 0, none, now⟩) ∧
    (d.status = "finished" →
      storeGet (progress_hook job_id d jobs now) job_id =
        some ⟨"processing", some "Processing with ffmpeg...", 100, none, now⟩) ∧
    (d.status ≠ "downloading" → d.status ≠ "finished" →
      progress_hook job_id d jobs now = jobs) := by
  refine ⟨?_, ?_, ?_⟩
  · intro h
    unfold progress_hook hookWrite?
    rw [if_pos h]
    exact storeGet_set_self jobs job_id _
  · intro h
    have h1 : ¬ d.status = "downloading" := by rw [h]; decide
    unfold progress_hook hookWrite?
    rw [if_neg h1, if_pos h]
    exact storeGet_set_self jobs job_id _
  · intro h1 h2
    unfold progress_hook hookWrite?
    rw [if_neg h1, if_neg h2]

/-- Witness for C4: a concrete 7-percent `downloading` event, a `finished`
event, and an unrecognized event kind against a concrete store. -/
theorem c4_witness :
    storeGet (progress_hook "j" ⟨"downloading", some "7%"⟩ [] 3) "j" =
      some ⟨"downloading", some "Downloading... 7%", 7, none, 3⟩ ∧
    storeGet (progress_hook "j" ⟨"finished", none⟩ [] 3) "j" =
      some ⟨"processing", some "Processing with ffmpeg...", 100, none, 3⟩ ∧
    progress_hook "j" ⟨"postprocessing", none⟩ [] 3 = [] := by
  refine ⟨?_, ?_, ?_⟩
  · have h := (c4_progress_hook_events "j" ⟨"downloading", some "7%"⟩ [] 3).1 rfl
    rw [h]
    have hrc : removeChar '%' ((some "7%").getD "0%") = "7" := by decide
    rw [hrc, pyFloat_7]
    have hmsg : "Downloading... " ++ "7" ++ "%" = "Downloading... 7%" := by decide
    rw [hmsg]
    rfl
  · exact (c4_progress_hook_events "j" ⟨"finished", none⟩ [] 3).2.1 rfl
  · exact (c4_progress_hook_events "j" ⟨"postprocessing", none⟩ [] 3).2.2
      (by decide) (by decide)

/-- C10: a `downloading` event with no `_percent_str` key at all is handled
totally — the percent string defaults to `'0%'`, so the hook stores progress 0
and the message `Downloading... 0%` instead of raising. -/
theorem c10_no_percent_defaults_zero (job_id : String) (jobs : JobStore) (now : Int) :
    storeGet (progress_hook job_id ⟨"downloading", none⟩ jobs now) job_id =
      some ⟨"downloading", some "Downloading... 0%", 0, none, now⟩ := by
  have h : storeGet (progress_hook job_id ⟨"downloading", none⟩ jobs now) job_id =
      some ⟨"downloading",
        some ("Downloading... " ++ removeChar '%' ((none : Option String).getD "0%") ++ "%"),
        (pyFloat? (removeChar '%' ((none : Option String).getD "0%"))).getD 0, none, now⟩ := by
    unfold progress_hook hookWrite?
    rw [if_pos rfl]
    exact storeGet_set_self jobs job_id _
  rw [h]
  have hrc : removeChar '%' ((none : Option String).getD "0%") = "0" := by decide
  rw [hrc, pyFloat_zero]
  have hmsg : "Downloading... " ++ "0" ++ "%" = "Downloading... 0%" := by decide
  rw [hmsg]
  rfl

/-- Helper: the record read back right after a `downloading` hook write. -/
theorem storeGet_hook_downloading (job_id : String) (d : HookEvent) (jobs : JobStore)
    (now : Int) (h : d.status = "downloading") :
    storeGet (progress_hook job_id d jobs now) job_id =
      some ⟨"downloading",
        some ("Downloading... " ++ removeChar '%' (d.percent_str.getD "0%") ++ "%"),
        (pyFloat? (removeChar '%' (d.percent_str.getD "0%"))).getD 0, none, now⟩ := by
  unfold progress_hook hookWrite?
  rw [if_pos h]
  exact storeGet_set_self jobs job_id _

/-- C5 counterexample: the code never clamps or compares progress values.  A
`downloading` event whose percent string is `150%` is stored verbatim as
progress 150, outside [0,100]; and an event sequence `50%` then `30%` yields
successive `downloading` writes whose stored progress decreases from 50 to 30. -/
theorem c5_counterexample :
    (storeGet (progress_hook "j" ⟨"downloading", some "150%"⟩ [] 0) "j").map
        JobRecord.progress = some 150 ∧
    ¬ ((150 : ℚ) ≤ 100) ∧
    (storeGet (progress_hook "j" ⟨"downloading", some "50%"⟩ [] 0) "j").map
        JobRecord.progress = some 50 ∧
    (storeGet (progress_hook "j" ⟨"downloading", some "30%"⟩
        (progress_hook "j" ⟨"downloading", some "50%"⟩ [] 0) 1) "j").map
        JobRecord.progress = some 30 ∧
    ¬ ((50 : ℚ) ≤ 30) := by
  refine ⟨?_, by norm_num, ?_, ?_, by norm_num⟩
  · rw [storeGet_hook_downloading "j" ⟨"downloading", some "150%"⟩ [] 0 rfl]
    have hrc : removeChar '%' ((some "150%").getD "0%") = "150" := by decide
    rw [hrc, pyFloat_150]
    rfl
  · rw [storeGet_hook_downloading "j" ⟨"downloading", some "50%"⟩ [] 0 rfl]
    have hrc : removeChar '%' ((some "50%").getD "0%") = "50" := by decide
    rw [hrc, pyFloat_50]
    rfl
  · rw [storeGet_hook_downloading "j" ⟨"downloading", some "30%"⟩
      (progress_hook "j" ⟨"downloading", some "50%"⟩ [] 0) 1 rfl]
    have hrc : removeChar '%' ((some "30%").getD "0%") = "30" := by decide
    rw [hrc, pyFloat_30]
    rfl

/-- Helper: range preservation of the hook over an event sequence, under the
assumption that every event's parsed percentage already lies in [0,100]. -/
theorem runHooks_range (job_id : String) (events : List (HookEvent × Int)) :
    ∀ jobs : JobStore,
      (∀ e ∈ jobs, 0 ≤ e.2.progress ∧ e.2.progress ≤ 100) →
      (∀ d ∈ events, 0 ≤ parsedPercent d.1 ∧ parsedPercent d.1 ≤ 100) →
      ∀ e ∈ runHooks job_id events jobs, 0 ≤ e.2.progress ∧ e.2.progress ≤ 100 := by
  induction events with
  | nil => intro jobs hj _ e he; exact hj e he
  | cons ev evs ih =>
    intro jobs hj hev e he
    have hstep : ∀ x ∈ progress_hook job_id ev.1 jobs ev.2,
        0 ≤ x.2.progress ∧ x.2.progress ≤ 100 := by
      unfold progress_hook
      cases hw : hookWrite? ev.1 with
      | none => simpa using hj
      | some w =>
        simp only []
        intro x hx
        rcases mem_storeSet _ _ _ _ hx with rfl | hmem
        · show 0 ≤ w.progress ∧ w.progress ≤ 100
          unfold hookWrite? at hw
          split_ifs at hw with h1 h2
          · cases hw
            exact hev ev (List.mem_cons_self _ _)
          · cases hw
            norm_num
        · exact hj x hmem
    exact ih (progress_hook job_id ev.1 jobs ev.2) hstep
      (fun d hd => hev d (List.mem_cons_of_mem _ hd)) e he

/-- C5 amended: the stored progress is exactly the parsed percentage (with the
defaults 0 for an unparsable or missing percent and 100 for the `finished`
write); the code does not clamp or compare, so the stored values stay within
[0,100] provided every delivered event's parsed percentage lies in [0,100],
and each `downloading` write stores exactly its event's parsed percentage —
hence successive stored values are non-decreasing precisely when the
collaborator's percentages are. -/
theorem c5_progress_range_amended (job_id : String) (events : List (HookEvent × Int))
    (jobs : JobStore)
    (hj : ∀ e ∈ jobs, 0 ≤ e.2.progress ∧ e.2.progress ≤ 100)
    (hev : ∀ d ∈ events, 0 ≤ parsedPercent d.1 ∧ parsedPercent d.1 ≤ 100) :
    (∀ e ∈ runHooks job_id events jobs, 0 ≤ e.2.progress ∧ e.2.progress ≤ 100) ∧
    (∀ (d : HookEvent) (s : JobStore) (now : Int), d.status = "downloading" →
      (storeGet (progress_hook job_id d s now) job_id).map JobRecord.progress =
        some (parsedPercent d)) := by
  constructor
  · exact runHooks_range job_id events jobs hj hev
  · intro d s now h
    rw [storeGet_hook_downloading job_id d s now h]
    rfl

/-- Witness for amended C5: the single record produced by the one-event
sequence `50%` carries an in-range progress. -/
theorem c5_amended_witness :
    0 ≤ (⟨"downloading", some "Downloading... 50%", (pyFloat? "50").getD 0, none, 1⟩ :
      JobRecord).progress ∧
    (⟨"downloading", some "Downloading... 50%", (pyFloat? "50").getD 0, none, 1⟩ :
      JobRecord).progress ≤ 100 := by
  have hpp : parsedPercent ⟨"downloading", some "50%"⟩ = 50 := by
    unfold parsedPercent
    have hrc : removeChar '%' ((some "50%").getD "0%") = "50" := by decide
    rw [hrc, pyFloat_50]
    rfl
  refine (c5_progress_range_amended "j" [(⟨"downloading", some "50%"⟩, 1)] []
    (by intro e he; exact absurd he (List.not_mem_nil e)) ?_).1
    ("j", ⟨"downloading", some "Downloading... 50%", (pyFloat? "50").getD 0, none, 1⟩) ?_
  · intro d hd
    have hd' : d = (⟨"downloading", some "50%"⟩, 1) := by simpa using hd
    subst hd'
    show 0 ≤ parsedPercent ⟨"downloading", some "50%"⟩ ∧
      parsedPercent ⟨"downloading", some "50%"⟩ ≤ 100
    rw [hpp]
    norm_num
  · exact List.mem_singleton.mpr rfl

/-- C8 counterexample: when `cookies.txt` does not exist the built
configuration does not omit the `cookiefile` key — the dict literal always
contains it, and its value is an explicit Python `None` (null). -/
theorem c8_counterexample :
    (build_ydl_opts "downloads" "job" ⟨some "best", none, none⟩
      (fun _ => false)).cookiefile = CookieOpt.nullv := rfl

/-- C8 amended: both configuration builders set `cookiefile` to the path
`cookies.txt` exactly when that file exists on disk, and to an explicit null
(Python `None`, which the collaborator treats as no cookie file) otherwise;
the key itself is never omitted. -/
theorem c8_cookiefile_amended (dl job_id : String) (fo : FormatOpts)
    (fsExists : String → Bool) :
    ((build_ydl_opts dl job_id fo fsExists).cookiefile = CookieOpt.path "cookies.txt"
        ↔ fsExists "cookies.txt" = true) ∧
    ((build_ydl_opts dl job_id fo fsExists).cookiefile = CookieOpt.nullv
        ↔ fsExists "cookies.txt" = false) ∧
    (formats_ydl_opts fsExists).cookiefile =
      (build_ydl_opts dl job_id fo fsExists).cookiefile := by
  cases h : fsExists "cookies.txt" <;>
    simp [build_ydl_opts, formats_ydl_opts, h]

/-- Witness for amended C8: with the cookie file present, the option is its
path. -/
theorem c8_amended_witness :
    (build_ydl_opts "downloads" "j" ⟨none, none, none⟩ (fun _ => true)).cookiefile =
      CookieOpt.path "cookies.txt" :=
  (c8_cookiefile_amended "downloads" "j" ⟨none, none, none⟩ (fun _ => true)).1.mpr rfl

/-! ## Lemmas about the formats pipeline -/

/-- The sort key parses the quality string of a bucket resolution back to it. -/
theorem bucket_key (res : Nat) (h : res ∈ buckets) : keyOfQ (toString res ++ "p") = res := by
  unfold buckets at h
  fin_cases h <;> decide

/-- The sort key of an entry depends only on its quality string. -/
theorem keyOf_eq_keyOfQ (e : FmtEntry) : keyOf e = keyOfQ e.quality := rfl

/-- Equal qualities give equal sort keys. -/
theorem quality_key_congr (a b : FmtEntry) (h : a.quality = b.quality) :
    keyOf a = keyOf b := by
  rw [keyOf_eq_keyOfQ, keyOf_eq_keyOfQ, h]

/-- Among bucket entries the sort key determines the quality string. -/
theorem isBucket_key_quality (a b : FmtEntry) (ha : IsBucket a) (hb : IsBucket b)
    (hk : keyOf a = keyOf b) : a.quality = b.quality := by
  obtain ⟨ra, hra, hqa⟩ := ha
  obtain ⟨rb, hrb, hqb⟩ := hb
  have h1 : keyOf a = ra := by rw [keyOf_eq_keyOfQ, hqa]; exact bucket_key ra hra
  have h2 : keyOf b = rb := by rw [keyOf_eq_keyOfQ, hqb]; exact bucket_key rb hrb
  rw [hqa, hqb]
  rw [h1, h2] at hk
  rw [hk]

/-- Characterization of membership in the collection loop's output. -/
theorem mem_collectFormats (fs : List RawFormat) (e : FmtEntry) :
    e ∈ collectFormats fs ↔
      ∃ f ∈ fs, ∃ res, f.vcodec ≠ "none" ∧ f.height = some res ∧ res ≠ 0 ∧
        res ∈ buckets ∧ e = mkEntry f res := by
  unfold collectFormats
  rw [List.mem_filterMap]
  constructor
  · rintro ⟨f, hf, hfe⟩
    refine ⟨f, hf, ?_⟩
    split at hfe
    · rename_i h1
      split at hfe
      · rename_i res hh
        split at hfe
        · rename_i h2
          injection hfe with he
          exact ⟨res, h1, hh, h2.1, h2.2, he.symm⟩
        · cases hfe
      · cases hfe
    · cases hfe
  · rintro ⟨f, hf, res, h1, hh, hz, hb, rfl⟩
    refine ⟨f, hf, ?_⟩
    rw [if_pos h1, hh]
    show (if res ≠ 0 ∧ res ∈ buckets then some (mkEntry f res) else none) =
      some (mkEntry f res)
    rw [if_pos ⟨hz, hb⟩]

/-- Every collected entry carries a bucket-resolution quality string. -/
theorem isBucket_of_mem_collect (fs : List RawFormat) (e : FmtEntry)
    (h : e ∈ collectFormats fs) : IsBucket e := by
  rcases (mem_collectFormats fs e).mp h with ⟨f, _, res, _, _, _, hb, rfl⟩
  exact ⟨res, hb, rfl⟩

/-- The stable sort of line 138 yields keys in non-increasing order. -/
theorem sorted_collect (fs : List RawFormat) :
    ((collectFormats fs).mergeSort descLe).Pairwise (fun a b => keyOf b ≤ keyOf a) := by
  have h : ((collectFormats fs).mergeSort descLe).Pairwise (fun a b => descLe a b = true) :=
    List.sorted_mergeSort
      (fun a b c hab hbc => by
        simp only [descLe, decide_eq_true_eq] at *
        omega)
      (fun a b => by
        simp only [descLe, Bool.or_eq_true, decide_eq_true_eq]
        omega)
      (collectFormats fs)
  exact h.imp (fun hab => by simpa [descLe] using hab)

/-- When a lookup by quality succeeds, the index generator of line 151 finds an
index as well. -/
theorem firstIdxAt_of_find?_some (acc : List FmtEntry) (q : String) (x : FmtEntry)
    (h : acc.find? (fun e => e.quality == q) = some x) :
    ∃ i, firstIdxAt q acc = some i := by
  induction acc with
  | nil => cases h
  | cons a t ih =>
    by_cases ha : (a.quality == q) = true
    · exact ⟨0, by unfold firstIdxAt; rw [if_pos ha]⟩
    · rw [@List.find?_cons_of_neg _ (fun e => e.quality == q) a t ha] at h
      rcases ih h with ⟨j, hj⟩
      refine ⟨j + 1, ?_⟩
      unfold firstIdxAt
      rw [if_neg ha, hj]
      rfl

/-- With distinct qualities in the accumulator, writing at the first matching
index is the same as mapping the pointwise replacement over the list. -/
theorem set_firstIdx_eq_map (f : FmtEntry) :
    ∀ (acc : List FmtEntry) (i : Nat),
      acc.Pairwise (fun a b => a.quality ≠ b.quality) →
      firstIdxAt f.quality acc = some i →
      acc.set i f = acc.map (fun y => if y.quality == f.quality then f else y) := by
  intro acc
  induction acc with
  | nil => intro i _ h; cases h
  | cons a t ih =>
    intro i hdist hidx
    unfold firstIdxAt at hidx
    by_cases ha : (a.quality == f.quality) = true
    · rw [if_pos ha] at hidx
      injection hidx with h0
      subst h0
      have haq : a.quality = f.quality := by simpa using ha
      have ht : t.map (fun y => if y.quality == f.quality then f else y) = t := by
        have hpt : ∀ y ∈ t, (if y.quality == f.quality then f else y) = y := by
          intro y hy
          have hne : a.quality ≠ y.quality := (List.pairwise_cons.mp hdist).1 y hy
          rw [if_neg (by simp [← haq]; exact fun hc => hne hc.symm)]
        rw [List.map_congr_left hpt]
        simp
      rw [List.set_cons_zero, List.map_cons, if_pos ha, ht]
    · rw [if_neg ha] at hidx
      cases hj : firstIdxAt f.quality t with
      | none => rw [hj] at hidx; cases hidx
      | some j =>
        rw [hj] at hidx
        injection hidx with h0
        subst h0
        have hga : (if a.quality == f.quality then f else a) = a := by rw [if_neg ha]
        rw [List.set_cons_succ, List.map_cons, hga]
        exact congrArg (a :: ·) (ih j (List.pairwise_cons.mp hdist).2 hj)

/-- The three possible outcomes of one deduplication iteration, with the
in-place `set` rewritten as a quality-directed map (legitimate because the
accumulator holds at most one entry per quality). -/
theorem dedupStep_cases (acc : List FmtEntry) (f : FmtEntry)
    (hdist : acc.Pairwise (fun a b => a.quality ≠ b.quality)) :
    (acc.find? (fun x => x.quality == f.quality) = none ∧ dedupStep acc f = acc ++ [f]) ∨
    (∃ x, acc.find? (fun x => x.quality == f.quality) = some x ∧
      (((f.has_audio && !x.has_audio) = true ∧
        dedupStep acc f = acc.map (fun y => if y.quality == f.quality then f else y)) ∨
       ((f.has_audio && !x.has_audio) = false ∧ dedupStep acc f = acc))) := by
  unfold dedupStep
  cases hf : acc.find? (fun x => x.quality == f.quality) with
  | none => exact Or.inl ⟨rfl, rfl⟩
  | some x =>
    refine Or.inr ⟨x, rfl, ?_⟩
    cases haud : (f.has_audio && !x.has_audio) with
    | false =>
      refine Or.inr ⟨rfl, ?_⟩
      show (if f.has_audio && !x.has_audio then
          match firstIdxAt f.quality acc with
          | some i => acc.set i f
          | none => acc
        else acc) = acc
      rw [if_neg (by simp [haud])]
    | true =>
      refine Or.inl ⟨rfl, ?_⟩
      show (if f.has_audio && !x.has_audio then
          match firstIdxAt f.quality acc with
          | some i => acc.set i f
          | none => acc
        else acc) = acc.map (fun y => if y.quality == f.quality then f else y)
      rw [if_pos haud]
      rcases firstIdxAt_of_find?_some acc f.quality x hf with ⟨i, hi⟩
      rw [hi]
      exact set_firstIdx_eq_map f acc i hdist hi

/-- Strictly descending keys force pairwise distinct qualities. -/
theorem qdist_of_keydesc (acc : List FmtEntry)
    (hdesc : acc.Pairwise (fun a b => keyOf b < keyOf a)) :
    acc.Pairwise (fun a b => a.quality ≠ b.quality) := by
  refine hdesc.imp ?_
  intro a b hk hq
  rw [quality_key_congr a b hq] at hk
  exact lt_irrefl _ hk

/-- In a list with pairwise distinct qualities, the entry at a quality is
unique. -/
theorem mem_unique_quality (acc : List FmtEntry)
    (hdist : acc.Pairwise (fun a b => a.quality ≠ b.quality)) :
    ∀ x ∈ acc, ∀ e ∈ acc, x.quality = e.quality → x = e := by
  induction acc with
  | nil => intro x hx; cases hx
  | cons a t ih =>
    rcases List.pairwise_cons.mp hdist with ⟨hhead, htail⟩
    intro x hx e he hq
    rcases List.mem_cons.mp hx with rfl | hx' <;> rcases List.mem_cons.mp he with rfl | he'
    · rfl
    · exact absurd hq (hhead e he')
    · exact absurd hq.symm (hhead x hx')
    · exact ih htail x hx' e he' hq

/-- The quality-directed replacement never changes sort keys. -/
theorem keyOf_replace (y f : FmtEntry) :
    keyOf (if y.quality == f.quality then f else y) = keyOf y := by
  by_cases h : (y.quality == f.quality) = true
  · rw [if_pos h, keyOf_eq_keyOfQ, keyOf_eq_keyOfQ]
    have hq : y.quality = f.quality := by simpa using h
    rw [hq]
  · rw [if_neg h]

/-- The quality-directed replacement never changes quality strings. -/
theorem quality_replace (y f : FmtEntry) :
    (if y.quality == f.quality then f else y).quality = y.quality := by
  by_cases h : (y.quality == f.quality) = true
  · rw [if_pos h]
    exact ((by simpa using h : y.quality = f.quality)).symm
  · rw [if_neg h]

/-- Invariant of the deduplication fold (lines 141-153): starting from an
accumulator with strictly descending keys all of whose entries dominate the
keys of the non-increasingly sorted remaining input, the fold (1) produces
only entries drawn from the accumulator or the input, (2) keeps keys strictly
descending, (3) represents exactly the qualities present in accumulator plus
input, and (4) ends with an audio-bearing entry at every quality for which an
audio-bearing candidate was available. -/
theorem dedup_fold_spec (l : List FmtEntry) :
    ∀ acc : List FmtEntry,
      (∀ e ∈ l, IsBucket e) →
      (∀ e ∈ acc, IsBucket e) →
      l.Pairwise (fun a b => keyOf b ≤ keyOf a) →
      (∀ a ∈ acc, ∀ b ∈ l, keyOf b ≤ keyOf a) →
      acc.Pairwise (fun a b => keyOf b < keyOf a) →
      (∀ e ∈ l.foldl dedupStep acc, e ∈ acc ∨ e ∈ l) ∧
      (l.foldl dedupStep acc).Pairwise (fun a b => keyOf b < keyOf a) ∧
      (∀ q, (∃ e ∈ l.foldl dedupStep acc, e.quality = q) ↔
        ((∃ e ∈ acc, e.quality = q) ∨ (∃ e ∈ l, e.quality = q))) ∧
      (∀ q, ((∃ x ∈ acc, x.quality = q ∧ x.has_audio = true) ∨
             (∃ x ∈ l, x.quality = q ∧ x.has_audio = true)) →
        ∀ e ∈ l.foldl dedupStep acc, e.quality = q → e.has_audio = true) := by
  induction l with
  | nil =>
    intro acc _ _ _ _ hdesc
    refine ⟨fun e he => Or.inl he, hdesc, by intro q; simp, ?_⟩
    intro q hw e he hq
    rcases hw with ⟨x, hx, hxq, hxa⟩ | ⟨x, hx, _⟩
    · have hxe := mem_unique_quality acc (qdist_of_keydesc acc hdesc) x hx e he
        (by rw [hxq, hq])
      rw [← hxe]; exact hxa
    · cases hx
  | cons f rest ih =>
    intro acc hbl hba hsort hcross hdesc
    have hqdist := qdist_of_keydesc acc hdesc
    have hbf : IsBucket f := hbl f (List.mem_cons_self _ _)
    have hsort_head : ∀ b ∈ rest, keyOf b ≤ keyOf f := (List.pairwise_cons.mp hsort).1
    have hsort_tail : rest.Pairwise (fun a b => keyOf b ≤ keyOf a) :=
      (List.pairwise_cons.mp hsort).2
    have hbl_tail : ∀ e ∈ rest, IsBucket e := fun e he => hbl e (List.mem_cons_of_mem _ he)
    rw [List.foldl_cons]
    rcases dedupStep_cases acc f hqdist with ⟨hfind, hD⟩ | ⟨x, hfind, hsub⟩
    · -- f's quality is new: append
      have hnotin : ∀ y ∈ acc, y.quality ≠ f.quality := by
        intro y hy
        have hy' := List.find?_eq_none.mp hfind y hy
        simpa using hy'
      have hba' : ∀ e ∈ acc ++ [f], IsBucket e := by
        intro e he
        rcases List.mem_append.mp he with h | h
        · exact hba e h
        · rw [List.mem_singleton.mp h]; exact hbf
      have hcross' : ∀ a ∈ acc ++ [f], ∀ b ∈ rest, keyOf b ≤ keyOf a := by
        intro a ha b hb
        rcases List.mem_append.mp ha with h | h
        · exact hcross a h b (List.mem_cons_of_mem _ hb)
        · rw [List.mem_singleton.mp h]; exact hsort_head b hb
      have hdesc' : (acc ++ [f]).Pairwise (fun a b => keyOf b < keyOf a) := by
        rw [List.pairwise_append]
        refine ⟨hdesc, List.pairwise_singleton _ _, ?_⟩
        intro a ha b hb
        rw [List.mem_singleton.mp hb]
        have hle : keyOf f ≤ keyOf a := hcross a ha f (List.mem_cons_self _ _)
        rcases lt_or_eq_of_le hle with h | h
        · exact h
        · exact absurd (isBucket_key_quality a f (hba a ha) hbf h.symm) (hnotin a ha)
      have ihres := ih (acc ++ [f]) hbl_tail hba' hsort_tail hcross' hdesc'
      rw [hD]
      refine ⟨?_, ihres.2.1, ?_, ?_⟩
      · intro e he
        rcases ihres.1 e he with h | h
        · rcases List.mem_append.mp h with h' | h'
          · exact Or.inl h'
          · exact Or.inr (by rw [List.mem_singleton.mp h']; exact List.mem_cons_self _ _)
        · exact Or.inr (List.mem_cons_of_mem _ h)
      · intro q
        rw [ihres.2.2.1 q]
        constructor
        · rintro (⟨e, he, hq⟩ | ⟨e, he, hq⟩)
          · rcases List.mem_append.mp he with h | h
            · exact Or.inl ⟨e, h, hq⟩
            · exact Or.inr ⟨e, List.mem_cons.mpr (Or.inl (List.mem_singleton.mp h)), hq⟩
          · exact Or.inr ⟨e, List.mem_cons_of_mem _ he, hq⟩
        · rintro (⟨e, he, hq⟩ | ⟨e, he, hq⟩)
          · exact Or.inl ⟨e, List.mem_append.mpr (Or.inl he), hq⟩
          · rcases List.mem_cons.mp he with rfl | h
            · exact Or.inl ⟨e, List.mem_append.mpr (Or.inr (List.mem_singleton.mpr rfl)), hq⟩
            · exact Or.inr ⟨e, h, hq⟩
      · intro q hw
        refine ihres.2.2.2 q ?_
        rcases hw with ⟨y, hy, hyq, hya⟩ | ⟨y, hy, hyq, hya⟩
        · exact Or.inl ⟨y, List.mem_append.mpr (Or.inl hy), hyq, hya⟩
        · rcases List.mem_cons.mp hy with rfl | hy'
          · exact Or.inl ⟨y, List.mem_append.mpr (Or.inr (List.mem_singleton.mpr rfl)),
              hyq, hya⟩
          · exact Or.inr ⟨y, hy', hyq, hya⟩
    · -- an entry x with f's quality already sits in the accumulator
      have hxmem : x ∈ acc := List.mem_of_find?_eq_some hfind
      have hxq : x.quality = f.quality := by simpa using List.find?_some hfind
      rcases hsub with ⟨haud, hD⟩ | ⟨haud, hD⟩
      · -- replacement: audio-bearing f overwrites the video-only x
        have hfa : f.has_audio = true := by
          cases hb : f.has_audio
          · rw [hb] at haud; simp at haud
          · rfl
        have hba' : ∀ e ∈ acc.map (fun y => if y.quality == f.quality then f else y),
            IsBucket e := by
          intro e he
          rcases List.mem_map.mp he with ⟨y, hy, rfl⟩
          by_cases h : (y.quality == f.quality) = true
          · rw [if_pos h]; exact hbf
          · rw [if_neg h]; exact hba y hy
        have hcross' : ∀ a ∈ acc.map (fun y => if y.quality == f.quality then f else y),
            ∀ b ∈ rest, keyOf b ≤ keyOf a := by
          intro a ha b hb
          rcases List.mem_map.mp ha with ⟨y, hy, rfl⟩
          rw [keyOf_replace]
          exact hcross y hy b (List.mem_cons_of_mem _ hb)
        have hdesc' : (acc.map (fun y => if y.quality == f.quality then f else y)).Pairwise
            (fun a b => keyOf b < keyOf a) := by
          rw [List.pairwise_map]
          refine hdesc.imp ?_
          intro a b h
          rw [keyOf_replace, keyOf_replace]
          exact h
        have ihres := ih _ hbl_tail hba' hsort_tail hcross' hdesc'
        rw [hD]
        refine ⟨?_, ihres.2.1, ?_, ?_⟩
        · intro e he
          rcases ihres.1 e he with h | h
          · rcases List.mem_map.mp h with ⟨y, hy, rfl⟩
            by_cases hc : (y.quality == f.quality) = true
            · rw [if_pos hc]; exact Or.inr (List.mem_cons_self _ _)
            · rw [if_neg hc]; exact Or.inl hy
          · exact Or.inr (List.mem_cons_of_mem _ h)
        · intro q
          rw [ihres.2.2.1 q]
          have hmapq : (∃ e ∈ acc.map (fun y => if y.quality == f.quality then f else y),
              e.quality = q) ↔ (∃ e ∈ acc, e.quality = q) := by
            constructor
            · rintro ⟨e, he, hq⟩
              rcases List.mem_map.mp he with ⟨y, hy, rfl⟩
              exact ⟨y, hy, by rw [← quality_replace y f]; exact hq⟩
            · rintro ⟨e, he, hq⟩
              refine ⟨(fun y => if y.quality == f.quality then f else y) e,
                List.mem_map.mpr ⟨e, he, rfl⟩, ?_⟩
              rw [quality_replace]; exact hq
          rw [hmapq]
          simp only [List.mem_cons]
          constructor
          · rintro (h | h)
            · exact Or.inl h
            · exact Or.inr ⟨_, Or.inr h.choose_spec.1, h.choose_spec.2⟩
          · rintro (h | ⟨e, he | he, hq⟩)
            · exact Or.inl h
            · exact Or.inl ⟨x, hxmem, by rw [hxq, ← he]; exact hq⟩
            · exact Or.inr ⟨e, he, hq⟩
        · intro q hw
          refine ihres.2.2.2 q ?_
          rcases hw with ⟨y, hy, hyq, hya⟩ | ⟨y, hy, hyq, hya⟩
          · refine Or.inl ⟨(if y.quality == f.quality then f else y),
              List.mem_map.mpr ⟨y, hy, rfl⟩, by rw [quality_replace]; exact hyq, ?_⟩
            by_cases hc : (y.quality == f.quality) = true
            · rw [if_pos hc]; exact hfa
            · rw [if_neg hc]; exact hya
          · rcases List.mem_cons.mp hy with hyf | hy'
            · refine Or.inl ⟨(if x.quality == f.quality then f else x),
                List.mem_map.mpr ⟨x, hxmem, rfl⟩, ?_, ?_⟩
              · rw [quality_replace, hxq, ← hyf]; exact hyq
              · rw [if_pos (by simpa using hxq)]; exact hfa
            · exact Or.inr ⟨y, hy', hyq, hya⟩
      · -- drop: the accumulator keeps its entry at f's quality
        have hcross' : ∀ a ∈ acc, ∀ b ∈ rest, keyOf b ≤ keyOf a :=
          fun a ha b hb => hcross a ha b (List.mem_cons_of_mem _ hb)
        have ihres := ih acc hbl_tail hba hsort_tail hcross' hdesc
        rw [hD]
        refine ⟨?_, ihres.2.1, ?_, ?_⟩
        · intro e he
          rcases ihres.1 e he with h | h
          · exact Or.inl h
          · exact Or.inr (List.mem_cons_of_mem _ h)
        · intro q
          rw [ihres.2.2.1 q]
          simp only [List.mem_cons]
          constructor
          · rintro (h | h)
            · exact Or.inl h
            · exact Or.inr ⟨_, Or.inr h.choose_spec.1, h.choose_spec.2⟩
          · rintro (h | ⟨e, he | he, hq⟩)
            · exact Or.inl h
            · exact Or.inl ⟨x, hxmem, by rw [hxq, ← he]; exact hq⟩
            · exact Or.inr ⟨e, he, hq⟩
        · intro q hw
          refine ihres.2.2.2 q ?_
          rcases hw with ⟨y, hy, hyq, hya⟩ | ⟨y, hy, hyq, hya⟩
          · exact Or.inl ⟨y, hy, hyq, hya⟩
          · rcases List.mem_cons.mp hy with rfl | hy'
            · refine Or.inl ⟨x, hxmem, by rw [hxq, ← hyq], ?_⟩
              rw [hya] at haud
              cases hb : x.has_audio
              · rw [hb] at haud; simp at haud
              · rfl
            · exact Or.inr ⟨y, hy', hyq, hya⟩

/-- Specification of `unique_formats`: entries come from the collection loop,
keys are strictly descending, exactly the collected qualities appear, and the
entry at any quality with an audio-bearing candidate is audio-bearing. -/
theorem unique_formats_spec (fs : List RawFormat) :
    (∀ e ∈ unique_formats fs, e ∈ collectFormats fs) ∧
    (unique_formats fs).Pairwise (fun a b => keyOf b < keyOf a) ∧
    (∀ q, (∃ e ∈ unique_formats fs, e.quality = q) ↔
      (∃ e ∈ collectFormats fs, e.quality = q)) ∧
    (∀ q, (∃ x ∈ collectFormats fs, x.quality = q ∧ x.has_audio = true) →
      ∀ e ∈ unique_formats fs, e.quality = q → e.has_audio = true) := by
  have hmem : ∀ {e : FmtEntry},
      e ∈ (collectFormats fs).mergeSort descLe ↔ e ∈ collectFormats fs :=
    fun {e} => List.mem_mergeSort
  have hspec := dedup_fold_spec ((collectFormats fs).mergeSort descLe) []
    (fun e he => isBucket_of_mem_collect fs e (hmem.mp he))
    (fun e he => absurd he (List.not_mem_nil e))
    (sorted_collect fs)
    (fun a ha => absurd ha (List.not_mem_nil a))
    List.Pairwise.nil
  unfold unique_formats
  refine ⟨?_, hspec.2.1, ?_, ?_⟩
  · intro e he
    rcases hspec.1 e he with h | h
    · cases h
    · exact hmem.mp h
  · intro q
    rw [hspec.2.2.1 q]
    constructor
    · rintro (⟨e, he, _⟩ | ⟨e, he, hq⟩)
      · cases he
      · exact ⟨e, hmem.mp he, hq⟩
    · rintro ⟨e, he, hq⟩
      exact Or.inr ⟨e, hmem.mpr he, hq⟩
  · intro q hw
    refine hspec.2.2.2 q ?_
    rcases hw with ⟨y, hy, hyq, hya⟩
    exact Or.inr ⟨y, hmem.mpr hy, hyq, hya⟩

/-- C6: the formats endpoint returns only entries in the six resolution
buckets; the list is strictly descending in resolution (hence contains at most
one entry per resolution); a resolution appears exactly when some input format
passes the collection filter at it; and whenever an audio-bearing format was
collected at a quality, the returned entry at that quality is audio-bearing
(`needs_merge = false`). -/
theorem c6_formats_sorted_dedup (info : VideoInfo) :
    (∀ o ∈ (get_formats info).formats, ∃ res, res ∈ buckets ∧
      o.quality = toString res ++ "p") ∧
    ((get_formats info).formats).Pairwise (fun a b => outRes b < outRes a) ∧
    (∀ q, (∃ o ∈ (get_formats info).formats, o.quality = q) ↔
      (∃ e ∈ collectFormats info.formats, e.quality = q)) ∧
    (∀ q, (∃ e ∈ collectFormats info.formats, e.quality = q ∧ e.has_audio = true) →
      ∀ o ∈ (get_formats info).formats, o.quality = q → o.needs_merge = false) := by
  have hu := unique_formats_spec info.formats
  have hform : (get_formats info).formats =
    (unique_formats info.formats).map renderFormat := rfl
  refine ⟨?_, ?_, ?_, ?_⟩
  · intro o ho
    rw [hform] at ho
    rcases List.mem_map.mp ho with ⟨e, he, rfl⟩
    rcases isBucket_of_mem_collect _ e (hu.1 e he) with ⟨res, hres, hq⟩
    exact ⟨res, hres, hq⟩
  · rw [hform, List.pairwise_map]
    refine hu.2.1.imp ?_
    intro a b h
    exact h
  · intro q
    rw [← hu.2.2.1 q, hform]
    constructor
    · rintro ⟨o, ho, hq⟩
      rcases List.mem_map.mp ho with ⟨e, he, rfl⟩
      exact ⟨e, he, hq⟩
    · rintro ⟨e, he, hq⟩
      exact ⟨renderFormat e, List.mem_map.mpr ⟨e, he, rfl⟩, hq⟩
  · intro q hw o ho hq
    rw [hform] at ho
    rcases List.mem_map.mp ho with ⟨e, he, rfl⟩
    have hea := hu.2.2.2 q hw e he hq
    show (renderFormat e).needs_merge = false
    simp [renderFormat, hea]

/-- Witness for C6: the spec's deduplication scenario — 720p with and without
audio plus a 1080p video-only format; every returned 720p entry is the
audio-bearing one. -/
theorem c6_witness :
    ∀ o ∈ (get_formats ⟨some "t", none,
        [⟨"22", "mp4", "hd", "avc1", "mp4a.40.2", some 720, some 1000, none⟩,
         ⟨"136", "mp4", "hd", "avc1", "none", some 720, some 2000, none⟩,
         ⟨"137", "webm", "fullhd", "vp9", "none", some 1080, none, some 3000⟩]⟩).formats,
      o.quality = "720p" → o.needs_merge = false := by
  refine (c6_formats_sorted_dedup _).2.2.2 "720p" ?_
  exact ⟨mkEntry ⟨"22", "mp4", "hd", "avc1", "mp4a.40.2", some 720, some 1000, none⟩ 720,
    by decide, by decide, by decide⟩

/-- C9: every entry of the formats response comes from an input format with a
video codec; if that format lacks audio the entry is reported with ext `mp4`,
note `HD (Video Only)` and `needs_merge = true`, while an audio-bearing format
keeps its own ext and is reported with note `Video + Audio` and
`needs_merge = false`. -/
theorem c9_rendered_fields (info : VideoInfo) :
    ∀ o ∈ (get_formats info).formats, ∃ f ∈ info.formats,
      f.vcodec ≠ "none" ∧
      (f.acodec = "none" →
        o.ext = "mp4" ∧ o.note = "HD (Video Only)" ∧ o.needs_merge = true) ∧
      (f.acodec ≠ "none" →
        o.ext = f.ext ∧ o.note = "Video + Audio" ∧ o.needs_merge = false) := by
  intro o ho
  have hform : (get_formats info).formats =
    (unique_formats info.formats).map renderFormat := rfl
  rw [hform] at ho
  rcases List.mem_map.mp ho with ⟨e, he, rfl⟩
  have hec := (unique_formats_spec info.formats).1 e he
  rcases (mem_collectFormats info.formats e).mp hec with ⟨f, hf, res, h1, _, _, _, rfl⟩
  refine ⟨f, hf, h1, ?_, ?_⟩
  · intro hac
    have hea : (mkEntry f res).has_audio = false := by simp [mkEntry, hac]
    exact ⟨by simp [renderFormat, hea], by simp [renderFormat, hea],
      by simp [renderFormat, hea]⟩
  · intro hac
    have hea : (mkEntry f res).has_audio = true := by simp [mkEntry, hac]
    refine ⟨?_, by simp [renderFormat, hea], by simp [renderFormat, hea]⟩
    show (if !(mkEntry f res).has_audio then "mp4" else (mkEntry f res).ext) = f.ext
    rw [hea]
    simp [mkEntry]

unseal List.merge List.mergeSort in
/-- Witness for C9 at the audio-bearing 720p entry of the concrete scenario. -/
theorem c9_witness :
    ∃ f ∈ ([⟨"22", "mp4", "hd", "avc1", "mp4a.40.2", some 720, some 1000, none⟩,
            ⟨"136", "mp4", "hd", "avc1", "none", some 720, some 2000, none⟩,
            ⟨"137", "webm", "fullhd", "vp9", "none", some 1080, none, some 3000⟩] :
        List RawFormat),
      f.vcodec ≠ "none" ∧
      (f.acodec = "none" →
        (⟨"22", "mp4", "720p", "Video + Audio", some 1000, false⟩ : OutFormat).ext = "mp4" ∧
        (⟨"22", "mp4", "720p", "Video + Audio", some 1000, false⟩ : OutFormat).note =
          "HD (Video Only)" ∧
        (⟨"22", "mp4", "720p", "Video + Audio", some 1000, false⟩ : OutFormat).needs_merge =
          true) ∧
      (f.acodec ≠ "none" →
        (⟨"22", "mp4", "720p", "Video + Audio", some 1000, false⟩ : OutFormat).ext = f.ext ∧
        (⟨"22", "mp4", "720p", "Video + Audio", some 1000, false⟩ : OutFormat).note =
          "Video + Audio" ∧
        (⟨"22", "mp4", "720p", "Video + Audio", some 1000, false⟩ : OutFormat).needs_merge =
          false) :=
  c9_rendered_fields
    ⟨some "t", none,
      [⟨"22", "mp4", "hd", "avc1", "mp4a.40.2", some 720, some 1000, none⟩,
       ⟨"136", "mp4", "hd", "avc1", "none", some 720, some 2000, none⟩,
       ⟨"137", "webm", "fullhd", "vp9", "none", some 1080, none, some 3000⟩]⟩
    ⟨"22", "mp4", "720p", "Video + Audio", some 1000, false⟩
    (by decide)

/-! ## Lemmas about the cleanup sweeper -/

/-- A miss in the store means no entry carries the key. -/
theorem storeGet_none_key (jobs : JobStore) (k : String) (h : storeGet jobs k = none) :
    ∀ e ∈ jobs, e.1 ≠ k := by
  intro e he
  have hfind : List.find? (fun e => e.1 == k) jobs = none := by
    unfold storeGet at h
    exact Option.map_eq_none'.mp h
  have := List.find?_eq_none.mp hfind e he
  simpa using this

/-- A hit in the store exhibits an entry with that key and record. -/
theorem storeGet_some_mem (jobs : JobStore) (k : String) (r : JobRecord)
    (h : storeGet jobs k = some r) : (k, r) ∈ jobs := by
  unfold storeGet at h
  cases hfind : List.find? (fun e => e.1 == k) jobs with
  | none => rw [hfind] at h; cases h
  | some e0 =>
    rw [hfind] at h
    injection h with h2
    have h1 : e0.1 = k := by simpa using List.find?_some hfind
    have hmem := List.mem_of_find?_eq_some hfind
    have : e0 = (k, r) := Prod.ext h1 h2
    rw [← this]
    exact hmem

/-- With distinct keys, an entry's record agrees with the store lookup. -/
theorem mem_key_record (jobs : JobStore) (hnd : (jobs.map (fun e => e.1)).Nodup)
    (e : String × JobRecord) (he : e ∈ jobs) (r : JobRecord)
    (hr : storeGet jobs e.1 = some r) : e.2 = r := by
  have h2 : (e.1, r) ∈ jobs := storeGet_some_mem jobs e.1 r hr
  have heq := List.inj_on_of_nodup_map hnd he h2 rfl
  rw [heq]

/-- Deleting a key keeps the remaining keys distinct. -/
theorem storeDel_keys_nodup (jobs : JobStore) (k : String)
    (hnd : (jobs.map (fun e => e.1)).Nodup) :
    ((storeDel jobs k).map (fun e => e.1)).Nodup :=
  (List.Sublist.map _ (List.filter_sublist jobs)).nodup hnd

/-- Membership in the store after a deletion. -/
theorem mem_storeDel (jobs : JobStore) (k : String) (e : String × JobRecord) :
    e ∈ storeDel jobs k ↔ e ∈ jobs ∧ e.1 ≠ k := by
  unfold storeDel
  rw [List.mem_filter]
  simp

/-- One sweep iteration when the key is (impossibly, in a sequential sweep)
absent. -/
theorem sweepJob_get_none (now : Int) (dl : String) (removeOk : String → Bool)
    (jobs : JobStore) (fs : List String) (k : String) (h : storeGet jobs k = none) :
    sweepJob now dl removeOk (jobs, fs) k = (jobs, fs) := by
  unfold sweepJob
  simp only [h]

/-- One sweep iteration on a job younger than the retention window: no change. -/
theorem sweepJob_get_fresh (now : Int) (dl : String) (removeOk : String → Bool)
    (jobs : JobStore) (fs : List String) (k : String) (r : JobRecord)
    (h : storeGet jobs k = some r)
    (hfresh : ¬(now - r.timestamp > cleanupMaxAgeSeconds)) :
    sweepJob now dl removeOk (jobs, fs) k = (jobs, fs) := by
  unfold sweepJob
  simp only [h, if_neg hfresh]

/-- One sweep iteration on a stale job: best-effort file removal, then record
deletion. -/
theorem sweepJob_get_stale (now : Int) (dl : String) (removeOk : String → Bool)
    (jobs : JobStore) (fs : List String) (k : String) (r : JobRecord)
    (h : storeGet jobs k = some r)
    (hstale : now - r.timestamp > cleanupMaxAgeSeconds) :
    sweepJob now dl removeOk (jobs, fs) k =
      (storeDel jobs k, sweepFileEffect dl removeOk fs r.filename) := by
  unfold sweepJob
  simp only [h, if_pos hstale]

/-- The file effect never creates files. -/
theorem sweepFileEffect_subset (dl : String) (removeOk : String → Bool)
    (fs : List String) (filename : Option String) :
    ∀ p ∈ sweepFileEffect dl removeOk fs filename, p ∈ fs := by
  intro p hp
  unfold sweepFileEffect at hp
  split at hp
  · split_ifs at hp
    · exact List.mem_of_mem_filter hp
    · exact hp
    · exact hp
    · exact hp
  · exact hp

/-- After the file effect for a truthy filename whose removal succeeds, the
joined path no longer exists. -/
theorem sweepFileEffect_removes (dl : String) (removeOk : String → Bool)
    (fs : List String) (fn : String) (hfn : fn ≠ "")
    (hrok : removeOk (joinPath dl fn) = true) :
    joinPath dl fn ∉ sweepFileEffect dl removeOk fs (some fn) := by
  have hne : (!fn.isEmpty) = true := by
    simp only [Bool.not_eq_true']
    rcases hempty : fn.isEmpty with _ | _
    · rfl
    · exact absurd ((String.isEmpty_iff fn).mp hempty) hfn
  simp only [sweepFileEffect]
  rw [if_pos hne]
  by_cases hc : fs.contains (joinPath dl fn) = true
  · rw [if_pos hc, if_pos hrok]
    intro hmem
    have := (List.mem_filter.mp hmem).2
    simp at this
  · rw [if_neg hc]
    intro hmem
    exact hc (by simpa using hmem)

/-- The sweep's filesystem component only shrinks across one iteration. -/
theorem sweepJob_snd_subset (now : Int) (dl : String) (removeOk : String → Bool)
    (jobs : JobStore) (fs : List String) (k : String) :
    ∀ p ∈ (sweepJob now dl removeOk (jobs, fs) k).2, p ∈ fs := by
  cases hget : storeGet jobs k with
  | none =>
    rw [sweepJob_get_none now dl removeOk jobs fs k hget]
    exact fun p hp => hp
  | some r =>
    by_cases hstale : now - r.timestamp > cleanupMaxAgeSeconds
    · rw [sweepJob_get_stale now dl removeOk jobs fs k r hget hstale]
      exact sweepFileEffect_subset dl removeOk fs r.filename
    · rw [sweepJob_get_fresh now dl removeOk jobs fs k r hget hstale]
      exact fun p hp => hp

/-- The sweep's filesystem component only shrinks across a whole cycle. -/
theorem sweep_foldl_snd_subset (now : Int) (dl : String) (removeOk : String → Bool)
    (ks : List String) :
    ∀ (jobs : JobStore) (fs : List String),
      ∀ p ∈ (ks.foldl (sweepJob now dl removeOk) (jobs, fs)).2, p ∈ fs := by
  induction ks with
  | nil => exact fun jobs fs p hp => hp
  | cons k t ih =>
    intro jobs fs p hp
    rw [List.foldl_cons] at hp
    rcases hsj : sweepJob now dl removeOk (jobs, fs) k with ⟨jobs1, fs1⟩
    rw [hsj] at hp
    have h1 : p ∈ fs1 := ih jobs1 fs1 p hp
    have h2 : p ∈ (sweepJob now dl removeOk (jobs, fs) k).2 := by rw [hsj]; exact h1
    exact sweepJob_snd_subset now dl removeOk jobs fs k p h2

/-- Invariant of one sweep cycle over a snapshot `ks` of distinct keys: the
resulting store keeps exactly the entries that are not (snapshotted and
stale), records untouched; and for every snapshotted stale entry with a truthy
recorded filename whose removal succeeds, the joined path is gone from the
resulting filesystem. -/
theorem sweep_fold_spec (now : Int) (dl : String) (removeOk : String → Bool) :
    ∀ (ks : List String) (jobs : JobStore) (fs : List String),
      ks.Nodup →
      (jobs.map (fun e => e.1)).Nodup →
      (ks.foldl (sweepJob now dl removeOk) (jobs, fs)).1 =
        jobs.filter (fun e =>
          !(decide (e.1 ∈ ks) && decide (now - e.2.timestamp > cleanupMaxAgeSeconds))) ∧
      (∀ e ∈ jobs, e.1 ∈ ks → now - e.2.timestamp > cleanupMaxAgeSeconds →
        ∀ fn, e.2.filename = some fn → fn ≠ "" → removeOk (joinPath dl fn) = true →
          joinPath dl fn ∉ (ks.foldl (sweepJob now dl removeOk) (jobs, fs)).2) := by
  intro ks
  induction ks with
  | nil =>
    intro jobs fs _ _
    refine ⟨by simp, ?_⟩
    intro e _ hek
    exact absurd hek (List.not_mem_nil _)
  | cons k t ih =>
    intro jobs fs hksnd hjnd
    have hknotint : k ∉ t := (List.nodup_cons.mp hksnd).1
    have htnd : t.Nodup := (List.nodup_cons.mp hksnd).2
    cases hget : storeGet jobs k with
    | none =>
      have hnok : ∀ e ∈ jobs, e.1 ≠ k := storeGet_none_key jobs k hget
      obtain ⟨h1, h3⟩ := ih jobs fs htnd hjnd
      rw [List.foldl_cons, sweepJob_get_none now dl removeOk jobs fs k hget]
      refine ⟨?_, ?_⟩
      · rw [h1]
        refine List.filter_congr ?_
        intro e he
        have hiff : (e.1 ∈ t) ↔ (e.1 ∈ k :: t) := by
          constructor
          · exact List.mem_cons_of_mem _
          · intro h
            rcases List.mem_cons.mp h with h' | h'
            · exact absurd h' (hnok e he)
            · exact h'
        have hdec : decide (e.1 ∈ t) = decide (e.1 ∈ k :: t) := decide_eq_decide.mpr hiff
        rw [hdec]
      · intro e he hek hstale fn hfn hfe hrok
        rcases List.mem_cons.mp hek with h' | h'
        · exact absurd h' (hnok e he)
        · exact h3 e he h' hstale fn hfn hfe hrok
    | some r =>
      have hkey : ∀ e ∈ jobs, e.1 = k → e.2 = r := by
        intro e he hk
        exact mem_key_record jobs hjnd e he r (by rw [hk]; exact hget)
      by_cases hstale : now - r.timestamp > cleanupMaxAgeSeconds
      · -- stale: delete the record (and maybe the file), then sweep the rest
        rw [List.foldl_cons, sweepJob_get_stale now dl removeOk jobs fs k r hget hstale]
        obtain ⟨h1, h3⟩ := ih (storeDel jobs k) (sweepFileEffect dl removeOk fs r.filename)
          htnd (storeDel_keys_nodup jobs k hjnd)
        refine ⟨?_, ?_⟩
        · rw [h1]
          unfold storeDel
          rw [List.filter_filter]
          refine List.filter_congr ?_
          intro e he
          by_cases hk : e.1 = k
          · have her : e.2 = r := hkey e he hk
            have h5 : (e.1 ∈ k :: t) := by rw [hk]; exact List.mem_cons_self _ _
            have h6 : now - e.2.timestamp > cleanupMaxAgeSeconds := by rw [her]; exact hstale
            simp [hk, h5, h6]
          · have hiff : (e.1 ∈ t) ↔ (e.1 ∈ k :: t) := by
              constructor
              · exact List.mem_cons_of_mem _
              · intro h
                rcases List.mem_cons.mp h with h' | h'
                · exact absurd h' hk
                · exact h'
            have hdec : decide (e.1 ∈ t) = decide (e.1 ∈ k :: t) := decide_eq_decide.mpr hiff
            rw [hdec]
            simp [hk]
        · intro e he hek hestale fn hfn hfe hrok
          by_cases hk : e.1 = k
          · have her : e.2 = r := hkey e he hk
            have hpath : joinPath dl fn ∉ sweepFileEffect dl removeOk fs r.filename := by
              rw [← her, hfn]
              exact sweepFileEffect_removes dl removeOk fs fn hfe hrok
            intro hmem
            exact hpath (sweep_foldl_snd_subset now dl removeOk t _ _ _ hmem)
          · have he' : e ∈ storeDel jobs k := (mem_storeDel jobs k e).mpr ⟨he, hk⟩
            have hek' : e.1 ∈ t := by
              rcases List.mem_cons.mp hek with h' | h'
              · exact absurd h' hk
              · exact h'
            exact h3 e he' hek' hestale fn hfn hfe hrok
      · -- fresh: nothing happens for this key
        rw [List.foldl_cons, sweepJob_get_fresh now dl removeOk jobs fs k r hget hstale]
        obtain ⟨h1, h3⟩ := ih jobs fs htnd hjnd
        refine ⟨?_, ?_⟩
        · rw [h1]
          refine List.filter_congr ?_
          intro e he
          by_cases hk : e.1 = k
          · have her : e.2 = r := hkey e he hk
            have h6 : ¬(now - e.2.timestamp > cleanupMaxAgeSeconds) := by
              rw [her]; exact hstale
            have h7 : e.1 ∉ t := by rw [hk]; exact hknotint
            simp [h6, h7]
          · have hiff : (e.1 ∈ t) ↔ (e.1 ∈ k :: t) := by
              constructor
              · exact List.mem_cons_of_mem _
              · intro h
                rcases List.mem_cons.mp h with h' | h'
                · exact absurd h' hk
                · exact h'
            have hdec : decide (e.1 ∈ t) = decide (e.1 ∈ k :: t) := decide_eq_decide.mpr hiff
            rw [hdec]
        · intro e he hek hestale fn hfn hfe hrok
          rcases List.mem_cons.mp hek with h' | h'
          · have her : e.2 = r := hkey e he h'
            rw [her] at hestale
            exact absurd hestale hstale
          · exact h3 e he h' hestale fn hfn hfe hrok

/-- C7: one cleanup cycle iterates over the stable snapshot
`list(jobs.keys())` taken before any deletion; it removes exactly the job
records more than 1 hour (3600 seconds) stale at sweep time, leaving younger
records untouched (same records, same order); the filesystem only shrinks;
and the backing file of every stale job with a truthy recorded filename is
gone afterwards whenever its removal succeeds (a failed or already-missing
file is swallowed, never an error); the cycle repeats every 300 seconds
(5 minutes). -/
theorem c7_cleanup_sweep (now : Int) (dl : String) (removeOk : String → Bool)
    (jobs : JobStore) (fs : List String)
    (hnd : (jobs.map (fun e => e.1)).Nodup) :
    (cleanup_sweep now dl removeOk jobs fs).1 =
      jobs.filter (fun e => !(decide (now - e.2.timestamp > cleanupMaxAgeSeconds))) ∧
    (∀ p ∈ (cleanup_sweep now dl removeOk jobs fs).2, p ∈ fs) ∧
    (∀ e ∈ jobs, now - e.2.timestamp > cleanupMaxAgeSeconds →
      ∀ fn, e.2.filename = some fn → fn ≠ "" → removeOk (joinPath dl fn) = true →
        joinPath dl fn ∉ (cleanup_sweep now dl removeOk jobs fs).2) ∧
    cleanupMaxAgeSeconds = 3600 ∧ cleanupSleepSeconds = 300 := by
  obtain ⟨h1, h3⟩ :=
    sweep_fold_spec now dl removeOk (jobs.map (fun e => e.1)) jobs fs hnd hnd
  refine ⟨?_, ?_, ?_, rfl, rfl⟩
  · rw [show cleanup_sweep now dl removeOk jobs fs =
      (jobs.map (fun e => e.1)).foldl (sweepJob now dl removeOk) (jobs, fs) from rfl, h1]
    refine List.filter_congr ?_
    intro e he
    have hin : e.1 ∈ jobs.map (fun x => x.1) := List.mem_map.mpr ⟨e, he, rfl⟩
    simp [hin]
  · exact fun p hp => sweep_foldl_snd_subset now dl removeOk _ jobs fs p hp
  · intro e he hstale fn hfn hfe hrok
    exact h3 e he (List.mem_map.mpr ⟨e, he, rfl⟩) hstale fn hfn hfe hrok

/-- Witness for C7: a sweep at time 5000 over one stale job (timestamp 0, with
a backing file) and one fresh job (timestamp 4000) keeps exactly the fresh
record and deletes the stale job's file. -/
theorem c7_witness :
    (cleanup_sweep 5000 "downloads" (fun _ => true)
        [("a", ⟨"completed", some "Finished!", 100, some "a_f.mp4", 0⟩),
         ("b", ⟨"starting", some "Starting process...", 0, none, 4000⟩)]
        ["downloads/a_f.mp4"]).1 =
      [("b", ⟨"starting", some "Starting process...", 0, none, 4000⟩)] ∧
    "downloads/a_f.mp4" ∉
      (cleanup_sweep 5000 "downloads" (fun _ => true)
        [("a", ⟨"completed", some "Finished!", 100, some "a_f.mp4", 0⟩),
         ("b", ⟨"starting", some "Starting process...", 0, none, 4000⟩)]
        ["downloads/a_f.mp4"]).2 := by
  have h := c7_cleanup_sweep 5000 "downloads" (fun _ => true)
    [("a", ⟨"completed", some "Finished!", 100, some "a_f.mp4", 0⟩),
     ("b", ⟨"starting", some "Starting process...", 0, none, 4000⟩)]
    ["downloads/a_f.mp4"] (by decide)
  constructor
  · rw [h.1]
    rfl
  · exact h.2.2.1 ("a", ⟨"completed", some "Finished!", 100, some "a_f.mp4", 0⟩)
      (List.mem_cons_self _ _) (by decide) "a_f.mp4" rfl (by decide) rfl
